import Mathlib

/-!
Verification of the multi-stage document deduplication pipeline
(`plc_deduplication.py`, `plc_deduplication_fixed.py`,
`plc_deduplication_debug.py`).

The three scripts are orchestration drivers around a deduplication engine
(`ExactDuplicates`, `FuzzyDuplicates`, `SemDedup`, `Sequential`, `AddId`,
stage caching).  The engine itself is not part of the repository sources,
so its operations are modelled from the design specification; definitions
taken from the driver scripts themselves (input preprocessing, stage
ordering, cache clearing) are translated directly from the Python code.
-/

namespace PlcDedup

/-- A document after id assignment: `{id, text}` (spec section 3). -/
structure Document where
  id : Nat
  text : String
  deriving DecidableEq, Repr

/-- A raw input record, before id assignment: the `text` field may be
null (`none`) or absent, modelled as an `Option`. -/
structure RawDoc where
  text : Option String
  deriving DecidableEq, Repr

/-- Python `str.strip()` for the whitespace characters relevant here:
drops leading and trailing whitespace. -/
def stripStr (s : String) : String :=
  String.mk (((s.data.dropWhile Char.isWhitespace).reverse.dropWhile
    Char.isWhitespace).reverse)

/-- Input preprocessing of `plc_deduplication_fixed.py` lines 41-44 (and
`plc_deduplication_debug.py` lines 29-32): first
`ds.df = ds.df.dropna(subset=['text'])` removes rows with null text, then
`ds.df = ds.df[ds.df['text'].str.strip() != '']` removes rows whose text
strips to the empty string. -/
def preprocess (l : List RawDoc) : List RawDoc :=
  (l.filter (fun d => d.text.isSome)).filter
    (fun d => stripStr (d.text.getD "") != "")

/-- `AddId(id_field="id")`: the orchestrator assigns a fresh, monotonic,
unique id to each record (spec section 6: "if id absent, the orchestrator
assigns one (monotonic or content-derived, must be unique and stable for
the run)"). -/
def addId (l : List RawDoc) : List Document :=
  l.enum.map (fun p => ⟨p.1, p.2.text.getD ""⟩)

/-- Modelled from the spec: text normalization used by `computeHash`
(section 4.1, "digest over normalized text").  The drivers hash the raw
`text` field (`hash_method="md5"`), so normalization is the identity. -/
def normalizeText (s : String) : String := s

/-- Modelled from the spec: the exact-dedup retention test of
`ExactDuplicates` (section 4.2).  A document is kept iff it has the
lowest id among all documents of the pool sharing its ContentHash, the
ContentHash being modelled as the normalized text itself (an ideal
collision-free digest; collisions are an accepted residual risk). -/
def keepExact (pool : List Document) (d : Document) : Bool :=
  pool.all (fun e =>
    decide (normalizeText e.text = normalizeText d.text → d.id ≤ e.id))

/-- Modelled from the spec: survivors of stage 1, `dedupExact`
(section 4.2): within each ContentHash group exactly the lowest-id
member is retained. -/
def exactSurvivors (docs : List Document) : List Document :=
  docs.filter (keepExact docs)

/-- Modelled from the spec: ids removed by stage 1 (`dedupExact` adds
every non-retained member of a ContentHash group to the RemovalSet). -/
def exactRemovedIds (docs : List Document) : List Nat :=
  (docs.filter (fun d => !(keepExact docs d))).map (·.id)

/-- The running pipeline state threaded between stages: the current
survivor collection and the accumulated RemovalSet (spec section 3). -/
structure PipeState where
  survivors : List Document
  removal : List Nat
  deriving DecidableEq, Repr

/-- Modelled from the spec: one orchestrator stage transition
(section 4.5).  The stage computes the ids it removes from the current
survivors; the new survivor set is the current one minus those ids and
the RemovalSet is extended by exactly the removed survivors' ids. -/
def applyStage (rm : List Document → List Nat) (st : PipeState) : PipeState :=
  let rs := rm st.survivors
  { survivors := st.survivors.filter (fun d => !(rs.contains d.id))
    removal := st.removal ++
      (st.survivors.filter (fun d => rs.contains d.id)).map (·.id) }

/-- Configuration of the fuzzy-dedup stage (`FuzzyDuplicatesConfig`):
the tunables recognized by the scripts (spec section 6), with the
Jaccard threshold as an exact rational in `[0,1]`. -/
structure FuzzyCfg where
  char_ngrams : Nat
  num_buckets : Nat
  hashes_per_bucket : Nat
  jaccard_threshold : ℚ
  false_positive_check : Bool
  num_anchors : Nat
  deriving DecidableEq, Repr

/-- Modelled from the spec: overlapping character n-grams of a text
(section 4.1).  A text shorter than `n` yields the empty list
(degenerate, fail-soft). -/
def charNgrams (n : Nat) (s : String) : List (List Char) :=
  if n = 0 ∨ s.data.length < n then []
  else (List.range (s.data.length - n + 1)).map
    (fun i => (s.data.drop i).take n)

/-- The set of character n-grams of a text, for exact Jaccard
computation. -/
def ngramSet (n : Nat) (s : String) : Finset (List Char) :=
  (charNgrams n s).toFinset

/-- Modelled from the spec: true Jaccard similarity of two n-gram sets —
size of intersection over size of union (glossary).  Two empty sets give
`0/0 = 0`. -/
def jaccardSim (a b : Finset (List Char)) : ℚ :=
  ((a ∩ b).card : ℚ) / ((a ∪ b).card : ℚ)

/-- Modelled from the spec: the false-positive-check classification of a
candidate pair (section 4.3 step 4): the pair is a duplicate iff the true
Jaccard similarity of the two documents' n-gram sets is at least
`jaccard_threshold` (section 4.3: "Threshold `jaccard_threshold` is
inclusive (`similarity ≥ threshold` ⇒ duplicate)"). -/
def isFuzzyDuplicatePair (cfg : FuzzyCfg) (s t : String) : Bool :=
  decide (cfg.jaccard_threshold ≤
    jaccardSim (ngramSet cfg.char_ngrams s) (ngramSet cfg.char_ngrams t))

/-- Modelled from the spec: one seeded n-gram hash function of the
MinHash family (section 4.1, "one hash function with `k` seeds"),
a 64-bit polynomial rolling hash. -/
def ngramHash (seed : Nat) (g : List Char) : Nat :=
  g.foldl (fun a c => (a * 1099511628211 + c.toNat + 1) % 2 ^ 64) (seed % 2 ^ 64)

/-- Modelled from the spec: the MinHash signature (section 4.1): for each
of `k = num_buckets × hashes_per_bucket` seeds, the minimum hash value
over all n-grams of the text; a document with no n-grams still receives a
signature (all-sentinel, fail-soft). -/
def minhashSig (cfg : FuzzyCfg) (s : String) : List Nat :=
  (List.range (cfg.num_buckets * cfg.hashes_per_bucket)).map
    (fun i => ((charNgrams cfg.char_ngrams s).map (ngramHash i)).foldl min (2 ^ 64))

/-- Modelled from the spec: the LSH bands of a signature — `num_buckets`
contiguous slices of `hashes_per_bucket` hash values each (section 4.3
step 1). -/
def bandsOf (cfg : FuzzyCfg) (s : String) : List (List Nat) :=
  (List.range cfg.num_buckets).map
    (fun b => ((minhashSig cfg s).drop (b * cfg.hashes_per_bucket)).take
      cfg.hashes_per_bucket)

/-- Modelled from the spec: two documents are a candidate pair iff some
band position carries an identical band value for both (section 4.3
step 2). -/
def isCandidate (cfg : FuzzyCfg) (d e : Document) : Bool :=
  ((bandsOf cfg d.text).zip (bandsOf cfg e.text)).any
    (fun p => p.1 == p.2)

/-- One step of incremental connected-component grouping: inserting a
document merges every existing group it is related to. -/
def groupStep (rel : Document → Document → Bool) (gs : List (List Document))
    (d : Document) : List (List Document) :=
  (d :: (gs.filter (fun g => g.any (rel d))).flatten) ::
    gs.filter (fun g => !(g.any (rel d)))

/-- Modelled from the spec: connected components of the relation graph
over the documents (section 4.3 step 3 and section 4.4 step 3), built
incrementally. -/
def groupsBy (rel : Document → Document → Bool) (docs : List Document) :
    List (List Document) :=
  docs.foldl (groupStep rel) []

/-- Modelled from the spec: whether the false-positive check keeps a
non-anchor member in its group — some anchor verifies it at true Jaccard
similarity at least `jaccard_threshold` (section 4.3 step 4: "drop any
member below `jaccard_threshold` from the group"). -/
def fpKeep (cfg : FuzzyCfg) (anchors : List Document) (m : Document) : Bool :=
  anchors.any (fun a => isFuzzyDuplicatePair cfg m.text a.text)

/-- Modelled from the spec: the false-positive refinement of one
duplicate group (section 4.3 step 4): the first `num_anchors` members are
the anchors and stay; every other member stays iff some anchor verifies
it. -/
def fpRefine (cfg : FuzzyCfg) (g : List Document) : List Document :=
  g.take cfg.num_anchors ++
    (g.drop cfg.num_anchors).filter (fpKeep cfg (g.take cfg.num_anchors))

/-- Modelled from the spec: the retention policy representative of a
group — the lowest id, a deterministic choice (sections 4.2 and 4.6). -/
def retainId : List Document → Nat
  | [] => 0
  | d :: ds => ds.foldl (fun a e => min a e.id) d.id

/-- Modelled from the spec: ids removed from one duplicate group — none
for a group of at most one member (trivially unique), otherwise every
member except the retained representative. -/
def removedOfGroup (g : List Document) : List Nat :=
  if g.length ≤ 1 then []
  else (g.filter (fun d => d.id != retainId g)).map (·.id)

/-- Modelled from the spec: ids removed by the fuzzy-dedup stage
(`dedupFuzzy`, section 4.3): MinHash signatures, LSH banding to candidate
pairs, connected components, optional false-positive refinement, then the
retention policy per surviving group. -/
def fuzzyRemovedIds (cfg : FuzzyCfg) (docs : List Document) : List Nat :=
  let gs := groupsBy (isCandidate cfg) docs
  let gs' := if cfg.false_positive_check then gs.map (fpRefine cfg) else gs
  (gs'.map removedOfGroup).flatten

/-- The `which_to_keep` retention modes of semantic dedup (spec
section 4.4 step 4). -/
inductive WhichToKeep where
  | hard
  | easy
  | random
  deriving DecidableEq, Repr

/-- Configuration of the semantic-dedup stage (`SemDedupConfig`): the
semantic tunables recognized by the scripts (spec section 6), with the
extraction epsilon as an exact rational. -/
structure SemCfg where
  n_clusters : Nat
  max_iter : Nat
  random_state : Nat
  eps_to_extract : ℚ
  which_to_keep : WhichToKeep
  deriving DecidableEq, Repr

/-- An embedding vector, with exact rational coordinates. -/
abbrev Vec := List ℚ

/-- Squared L2 distance between two vectors (monotone in the L2
distance, so it induces the same nearest-centroid and
furthest-from-centroid choices). -/
def sqDist (a b : Vec) : ℚ :=
  ((a.zipWith (fun x y => (x - y) ^ 2) b).foldl (· + ·) 0)

/-- Pointwise vector sum. -/
def addVec (a b : Vec) : Vec := a.zipWith (· + ·) b

/-- Mean of a nonempty list of vectors; `[]` for the empty list. -/
def meanVec (vs : List Vec) : Vec :=
  match vs with
  | [] => []
  | v :: rest => (rest.foldl addVec v).map (fun x => x / (vs.length : ℚ))

/-- Index of the nearest centroid to a vector (first wins on ties). -/
def nearestIdx (cs : List Vec) (v : Vec) : Nat :=
  match cs.enum with
  | [] => 0
  | x :: xs =>
    (xs.foldl (fun b y => if sqDist y.2 v < sqDist b.2 v then y else b) x).1

/-- Modelled from the spec: one Lloyd iteration (section 4.4 step 2):
assign each point to its nearest centroid, then replace each centroid by
the mean of its assigned points (an empty cluster keeps its centroid). -/
def kmeansStep (pts : List Vec) (cs : List Vec) : List Vec :=
  (List.range cs.length).map (fun j =>
    let assigned := pts.filter (fun p => nearestIdx cs p == j)
    if assigned.isEmpty then cs.getD j [] else meanVec assigned)

/-- Modelled from the spec: Lloyd iteration up to the iteration cap,
stopping early on convergence (section 4.4 step 2). -/
def kmeansIter : Nat → List Vec → List Vec → List Vec
  | 0, _, cs => cs
  | fuel + 1, pts, cs =>
    let cs' := kmeansStep pts cs
    if cs' == cs then cs else kmeansIter fuel pts cs'

/-- Modelled from the spec: initial centroids, a deterministic function
of `random_state` (section 4.4: "deterministic given `random_state`"). -/
def initCentroids (seed k : Nat) (pts : List Vec) : List Vec :=
  (List.range k).map (fun i => pts.getD ((seed + i) % max pts.length 1) [])

/-- Modelled from the spec: k-means over the embedding vectors —
`n_clusters` centroids, at most `max_iter` iterations, deterministic
given `random_state` (section 4.4 step 2). -/
def kmeans (cfg : SemCfg) (pts : List Vec) : List Vec :=
  kmeansIter cfg.max_iter pts (initCentroids cfg.random_state cfg.n_clusters pts)

/-- Greedy fold selecting the member with the largest second component
(first wins on ties). -/
def pickFurthest : List (Nat × ℚ) → Option (Nat × ℚ)
  | [] => none
  | x :: xs => some (xs.foldl (fun b y => if b.2 < y.2 then y else b) x)

/-- Greedy fold selecting the member with the smallest second component
(first wins on ties). -/
def pickClosest : List (Nat × ℚ) → Option (Nat × ℚ)
  | [] => none
  | x :: xs => some (xs.foldl (fun b y => if y.2 < b.2 then y else b) x)

/-- Modelled from the spec: the semantic retention policy
`choose(group, context) → survivorId` (sections 4.4 step 4 and 4.6).
The group is given as `(id, distance-to-centroid)` pairs: `hard` retains
the member furthest from the cluster centroid, `easy` the member closest
to it, `random` a seeded, reproducible member. -/
def chooseSurvivor (mode : WhichToKeep) (seed : Nat)
    (g : List (Nat × ℚ)) : Option Nat :=
  match mode with
  | .hard => (pickFurthest g).map (·.1)
  | .easy => (pickClosest g).map (·.1)
  | .random =>
    if g.isEmpty then none else some ((g.getD (seed % g.length) (0, 0)).1)

/-- Modelled from the spec: ids removed from one semantic duplicate
group — none for a group of at most one member, otherwise every member
except the one chosen by the retention policy. -/
def semRemovedOfGroup (cfg : SemCfg) (c : Vec) (embed : Document → Vec)
    (g : List Document) : List Nat :=
  if g.length ≤ 1 then []
  else
    match chooseSurvivor cfg.which_to_keep cfg.random_state
        (g.map (fun d => (d.id, sqDist (embed d) c))) with
    | some k => (g.filter (fun d => d.id != k)).map (·.id)
    | none => []

/-- Modelled from the spec: ids removed by the semantic-dedup stage
(`dedupSemantic`, section 4.4): embed the survivors through the external
embedding function, cluster by k-means, join within-cluster pairs within
`eps_to_extract` into duplicate groups, then apply the retention
policy per group. -/
def semRemovedIds (cfg : SemCfg) (embed : Document → Vec)
    (docs : List Document) : List Nat :=
  let cs := kmeans cfg (docs.map embed)
  ((List.range cs.length).map (fun j =>
    let mem := docs.filter (fun d => nearestIdx cs (embed d) == j)
    let gs := groupsBy
      (fun d e => decide (sqDist (embed d) (embed e) ≤ cfg.eps_to_extract ^ 2)) mem
    (gs.map (semRemovedOfGroup cfg (cs.getD j []) embed)).flatten)).flatten

/-- The three dedup stages, in the canonical order of the design. -/
inductive StageName where
  | exact
  | fuzzy
  | semantic
  deriving DecidableEq, Repr

/-- The orchestrator states of spec section 4.5. -/
inductive OrchState where
  | Loaded
  | ExactDone
  | FuzzyDone
  | SemanticDone
  | Finalized
  deriving DecidableEq, Repr

/-- The orchestrator state reached by completing a stage. -/
def doneState : StageName → OrchState
  | .exact => .ExactDone
  | .fuzzy => .FuzzyDone
  | .semantic => .SemanticDone

/-- The orchestrator states a run visits, given the stages it executes:
`Loaded`, then one done-state per executed stage, then `Finalized`. -/
def statesVisited (l : List StageName) : List OrchState :=
  OrchState.Loaded :: l.map doneState ++ [OrchState.Finalized]

/-- The canonical full stage order `exact → fuzzy → semantic` of the
design (spec sections 2 and 4.5). -/
def fullStageOrder : List StageName := [.exact, .fuzzy, .semantic]

/-- Stage sequence of `plc_deduplication.py` line 128:
`Sequential([exact, fuzzy, semantic])`. -/
def plcStages : List StageName := [.exact, .fuzzy, .semantic]

/-- Stage sequence of `plc_deduplication_fixed.py` lines 106-148: stage 1
(`exact(ds)`) then stage 2 (`fuzzy(ds_after_exact)`); the semantic stage
is commented out (`clean_ds = ds_after_fuzzy`). -/
def fixedStages : List StageName := [.exact, .fuzzy]

/-- Stage sequence of `plc_deduplication_debug.py` lines 49-65: only the
fuzzy stage is constructed and applied, directly to the preprocessed
input (`fuzzy(ds)`). -/
def debugStages : List StageName := [.fuzzy]

/-- The intermediate pipeline states of the full three-stage pipeline of
`plc_deduplication.py`: initial state, after exact, after fuzzy, after
semantic. -/
def fullPipeline (fc : FuzzyCfg) (sc : SemCfg) (embed : Document → Vec)
    (docs : List Document) : List PipeState :=
  let s0 : PipeState := ⟨docs, []⟩
  let s1 := applyStage exactRemovedIds s0
  let s2 := applyStage (fuzzyRemovedIds fc) s1
  let s3 := applyStage (semRemovedIds sc embed) s2
  [s0, s1, s2, s3]

/-- The collection entering stage 1 in `plc_deduplication_fixed.py`:
the raw records after null/empty filtering and id assignment
(lines 38-50). -/
def fixedStage1Input (raw : List RawDoc) : List Document :=
  addId (preprocess raw)

/-- The intermediate pipeline states of the run of
`plc_deduplication_fixed.py`: preprocessed-and-id-assigned input, after
exact dedup, after fuzzy dedup. -/
def fixedRun (fc : FuzzyCfg) (raw : List RawDoc) : List PipeState :=
  let s0 : PipeState := ⟨fixedStage1Input raw, []⟩
  let s1 := applyStage exactRemovedIds s0
  let s2 := applyStage (fuzzyRemovedIds fc) s1
  [s0, s1, s2]

/-- A committed stage cache entry (spec section 4.5): keyed by the
stage's configuration fingerprint, holding the stage's survivor output
and its removed ids. -/
structure CacheEntry where
  fp : Nat
  outSurvivors : List Document
  removedIds : List Nat
  deriving DecidableEq, Repr

/-- Modelled from the spec: the all-or-nothing commit of a stage's
output to its cache (section 5): the survivor set and removed ids the
stage produces on the given input, keyed by the configuration
fingerprint. -/
def commitEntry (fp : Nat) (rm : List Document → List Nat)
    (docs : List Document) : CacheEntry :=
  ⟨fp, (applyStage rm ⟨docs, []⟩).survivors, (applyStage rm ⟨docs, []⟩).removal⟩

/-- Modelled from the spec: a resumable stage execution (section 4.5):
if a cache entry exists and its fingerprint matches the current
configuration, the cached survivor/removal output is loaded instead of
recomputed; otherwise (no cache, or mismatched fingerprint) the stage is
recomputed and committed.  The boolean reports whether the cache was
loaded. -/
def runStageCached (fp : Nat) (rm : List Document → List Nat)
    (cache : Option CacheEntry) (st : PipeState) :
    PipeState × CacheEntry × Bool :=
  match cache with
  | some e =>
    if e.fp = fp then
      (⟨e.outSurvivors, st.removal ++ e.removedIds⟩, e, true)
    else
      (applyStage rm st, commitEntry fp rm st.survivors, false)
  | none => (applyStage rm st, commitEntry fp rm st.survivors, false)

/-- `plc_deduplication_fixed.py` line 17: `CLEAR_CACHE = True`. -/
def CLEAR_CACHE : Bool := true

/-- `plc_deduplication_fixed.py` lines 19-24: when `CLEAR_CACHE` is set,
every stage cache directory is deleted (`shutil.rmtree`) at startup,
before any stage runs. -/
def clearCaches (c : Option CacheEntry) : Option CacheEntry :=
  if CLEAR_CACHE then none else c

/-- A restart of `plc_deduplication_fixed.py`: the startup cache clearing
runs first, then the stage executes against whatever cache remains. -/
def fixedRestartStage (fp : Nat) (rm : List Document → List Nat)
    (cache : Option CacheEntry) (st : PipeState) :
    PipeState × CacheEntry × Bool :=
  runStageCached fp rm (clearCaches cache) st

/-! ## Helper lemmas -/

theorem mem_preprocess {l : List RawDoc} {d : RawDoc} :
    d ∈ preprocess l ↔
      d ∈ l ∧ d.text.isSome ∧ stripStr (d.text.getD "") ≠ "" := by
  unfold preprocess
  simp only [List.mem_filter, bne_iff_ne, ne_eq, and_assoc]

theorem stripStr_eq_empty {s : String} (h : ∀ c ∈ s.data, c.isWhitespace) :
    stripStr s = "" := by
  unfold stripStr
  rw [List.dropWhile_eq_nil_iff.mpr h]
  rfl

theorem exists_not_ws_of_strip_ne {s : String} (h : stripStr s ≠ "") :
    ∃ c ∈ s.data, ¬ c.isWhitespace := by
  by_contra hc
  push_neg at hc
  exact h (stripStr_eq_empty (by simpa using hc))

theorem mem_fixedStage1Input {raw : List RawDoc} {e : Document}
    (he : e ∈ fixedStage1Input raw) : stripStr e.text ≠ "" := by
  unfold fixedStage1Input addId at he
  simp only [List.mem_map] at he
  obtain ⟨p, hp, rfl⟩ := he
  have h2 : p.2 ∈ preprocess raw := by
    have hs := List.enum_map_snd (preprocess raw)
    exact hs ▸ List.mem_map_of_mem Prod.snd hp
  exact (mem_preprocess.mp h2).2.2

theorem applyStage_survivors_sublist (rm : List Document → List Nat)
    (st : PipeState) :
    List.Sublist (applyStage rm st).survivors st.survivors :=
  List.filter_sublist _

/-- The cross-stage consistency invariant of the pipeline state: survivor
ids are pairwise distinct, the RemovalSet holds no id twice, and no
removed id is still alive. -/
def StateInv (st : PipeState) : Prop :=
  (st.survivors.map (·.id)).Nodup ∧ st.removal.Nodup ∧
    ∀ i ∈ st.removal, i ∉ st.survivors.map (·.id)

theorem stateInv_applyStage (rm : List Document → List Nat) (st : PipeState)
    (h : StateInv st) : StateInv (applyStage rm st) := by
  obtain ⟨h1, h2, h3⟩ := h
  have hsub1 : List.Sublist
      (((applyStage rm st).survivors).map (·.id)) (st.survivors.map (·.id)) :=
    (applyStage_survivors_sublist rm st).map _
  have hsub2 : List.Sublist
      (((st.survivors.filter
        (fun d => (rm st.survivors).contains d.id)).map (·.id)))
      (st.survivors.map (·.id)) :=
    (List.filter_sublist _).map _
  refine ⟨h1.sublist hsub1, ?_, ?_⟩
  · rw [show (applyStage rm st).removal = st.removal ++
      ((st.survivors.filter
        (fun d => (rm st.survivors).contains d.id)).map (·.id)) from rfl]
    rw [List.nodup_append]
    exact ⟨h2, h1.sublist hsub2, fun a ha hb => h3 a ha (hsub2.subset hb)⟩
  · intro i hi hmem
    rw [show (applyStage rm st).removal = st.removal ++
      ((st.survivors.filter
        (fun d => (rm st.survivors).contains d.id)).map (·.id)) from rfl,
      List.mem_append] at hi
    rcases hi with hi | hi
    · exact h3 i hi (hsub1.subset hmem)
    · simp only [applyStage, List.mem_map, List.mem_filter] at hi hmem
      obtain ⟨e, ⟨_, hq⟩, rfl⟩ := hi
      obtain ⟨f, ⟨_, hp⟩, hfi⟩ := hmem
      rw [hfi, Bool.not_eq_true'] at hp
      rw [hp] at hq
      exact Bool.false_ne_true hq

/-! ## C2: stage ordering of the runs -/

/-- C2 counterexample: the claim "every run passes through Loaded,
ExactDone, FuzzyDone, SemanticDone, Finalized in that order with no stage
skipped" is false on the code: the run of `plc_deduplication_debug.py`
executes only the fuzzy stage, so it skips the exact stage entirely (the
fuzzy dedup is applied to input that never went through exact dedup) and
never reaches `ExactDone` or `SemanticDone`. -/
theorem debug_run_skips_stages :
    debugStages ≠ fullStageOrder ∧
    StageName.exact ∉ debugStages ∧
    statesVisited debugStages ≠
      [OrchState.Loaded, OrchState.ExactDone, OrchState.FuzzyDone,
       OrchState.SemanticDone, OrchState.Finalized] := by
  decide

/-- C2 (amended): stages always execute in the relative order
exact → fuzzy → semantic (every script's stage sequence is a subsequence
of the canonical order, so no stage ever runs before an executed earlier
stage), and `plc_deduplication.py` passes through all five orchestrator
states in order; but stages can be skipped: `plc_deduplication_fixed.py`
omits the semantic stage and `plc_deduplication_debug.py` runs only the
fuzzy stage. -/
theorem stage_order_of_runs :
    plcStages = fullStageOrder ∧
    statesVisited plcStages =
      [OrchState.Loaded, OrchState.ExactDone, OrchState.FuzzyDone,
       OrchState.SemanticDone, OrchState.Finalized] ∧
    List.Sublist fixedStages fullStageOrder ∧
    List.Sublist debugStages fullStageOrder ∧
    fixedStages ≠ fullStageOrder ∧
    debugStages ≠ fullStageOrder := by
  decide

/-! ## C7 / C9 / C10: input validation and id assignment -/

/-- C7: a document with null or empty text is excluded by the
preprocessing of `plc_deduplication_fixed.py` before stage 1 runs; every
document in every stage's survivor set has non-empty text; and the
exclusion is per-document, not fatal: every record with valid text is
still processed. -/
theorem null_empty_text_excluded (raw : List RawDoc) (fc : FuzzyCfg)
    (d : RawDoc) (hd : d.text = none ∨ d.text = some "") :
    d ∉ preprocess raw ∧
    (∀ st ∈ fixedRun fc raw, ∀ e ∈ st.survivors, e.text ≠ "") ∧
    (∀ e ∈ raw, ∀ t, e.text = some t → stripStr t ≠ "" →
      e ∈ preprocess raw) := by
  refine ⟨?_, ?_, ?_⟩
  · intro hmem
    obtain ⟨-, hsome, hstrip⟩ := mem_preprocess.mp hmem
    rcases hd with hd | hd
    · rw [hd] at hsome
      exact absurd hsome (by simp)
    · rw [hd] at hstrip
      exact hstrip rfl
  · intro st hst e he hempty
    have hin : e ∈ fixedStage1Input raw := by
      have h01 : List.Sublist
          (applyStage exactRemovedIds ⟨fixedStage1Input raw, []⟩).survivors
          (fixedStage1Input raw) := applyStage_survivors_sublist _ _
      have h12 := applyStage_survivors_sublist (fuzzyRemovedIds fc)
        (applyStage exactRemovedIds ⟨fixedStage1Input raw, []⟩)
      simp only [fixedRun, List.mem_cons, List.mem_singleton] at hst
      rcases hst with rfl | rfl | rfl | h
      · exact he
      · exact h01.subset he
      · exact h01.subset (h12.subset he)
      · exact absurd h (List.not_mem_nil st)
    have := mem_fixedStage1Input hin
    rw [hempty] at this
    exact this rfl
  · intro e he t ht hstrip
    refine mem_preprocess.mpr ⟨he, ?_, ?_⟩
    · rw [ht]; rfl
    · rw [ht]; exact hstrip

/-- C9: the preprocessing filter excludes every document whose text is
whitespace-only (it strips to the empty string), not just null or empty
text: no such document enters stage 1 or any survivor set — every
surviving document contains some non-whitespace character. -/
theorem whitespace_only_excluded (raw : List RawDoc) (fc : FuzzyCfg)
    (d : RawDoc) (t : String) (ht : d.text = some t)
    (hws : ∀ c ∈ t.data, c.isWhitespace) :
    d ∉ preprocess raw ∧
    (∀ st ∈ fixedRun fc raw, ∀ e ∈ st.survivors,
      ∃ c ∈ e.text.data, ¬ c.isWhitespace) := by
  refine ⟨?_, ?_⟩
  · intro hmem
    obtain ⟨-, -, hstrip⟩ := mem_preprocess.mp hmem
    rw [ht] at hstrip
    exact hstrip (stripStr_eq_empty hws)
  · intro st hst e he
    have hin : e ∈ fixedStage1Input raw := by
      have h01 : List.Sublist
          (applyStage exactRemovedIds ⟨fixedStage1Input raw, []⟩).survivors
          (fixedStage1Input raw) := applyStage_survivors_sublist _ _
      have h12 := applyStage_survivors_sublist (fuzzyRemovedIds fc)
        (applyStage exactRemovedIds ⟨fixedStage1Input raw, []⟩)
      simp only [fixedRun, List.mem_cons, List.mem_singleton] at hst
      rcases hst with rfl | rfl | rfl | h
      · exact he
      · exact h01.subset he
      · exact h01.subset (h12.subset he)
      · exact absurd h (List.not_mem_nil st)
    exact exists_not_ws_of_strip_ne (mem_fixedStage1Input hin)

/-- C10: in the fixed run, ids are assigned by `AddId` after the
null/empty-text filter and before the first dedup stage: the stage-1
input carries exactly the fresh monotonic ids `0, …, n−1` over the
filtered records, those ids are pairwise distinct, every id-bearing
document entering stage 1 has valid (non-blank) text, and the stages
never reassign ids — every document surviving any stage is literally one
of the stage-1 input documents. -/
theorem ids_assigned_after_filter (raw : List RawDoc) (fc : FuzzyCfg) :
    (fixedStage1Input raw).map (·.id) = List.range (preprocess raw).length ∧
    ((fixedStage1Input raw).map (·.id)).Nodup ∧
    (∀ e ∈ fixedStage1Input raw, stripStr e.text ≠ "" ∧ e.text ≠ "") ∧
    (∀ st ∈ fixedRun fc raw, ∀ e ∈ st.survivors,
      e ∈ fixedStage1Input raw) := by
  have hmap : (fixedStage1Input raw).map (·.id) =
      List.range (preprocess raw).length := by
    unfold fixedStage1Input addId
    rw [List.map_map]
    exact List.enum_map_fst (preprocess raw)
  refine ⟨hmap, ?_, ?_, ?_⟩
  · rw [hmap]; exact List.nodup_range _
  · intro e he
    have h1 := mem_fixedStage1Input he
    refine ⟨h1, ?_⟩
    intro hempty
    rw [hempty] at h1
    exact h1 rfl
  · intro st hst e he
    have h01 : List.Sublist
        (applyStage exactRemovedIds ⟨fixedStage1Input raw, []⟩).survivors
        (fixedStage1Input raw) := applyStage_survivors_sublist _ _
    have h12 := applyStage_survivors_sublist (fuzzyRemovedIds fc)
      (applyStage exactRemovedIds ⟨fixedStage1Input raw, []⟩)
    simp only [fixedRun, List.mem_cons, List.mem_singleton] at hst
    rcases hst with rfl | rfl | rfl | h
    · exact he
    · exact h01.subset he
    · exact h01.subset (h12.subset he)
    · exact absurd h (List.not_mem_nil st)

/-! ## C3 / C5: exact dedup correctness and idempotence -/

theorem keepExact_iff {docs : List Document} {d : Document} :
    keepExact docs d = true ↔
      ∀ e ∈ docs, normalizeText e.text = normalizeText d.text → d.id ≤ e.id := by
  simp only [keepExact, List.all_eq_true, decide_eq_true_eq]

theorem mem_exactSurvivors {docs : List Document} {d : Document} :
    d ∈ exactSurvivors docs ↔ d ∈ docs ∧ keepExact docs d = true := by
  simp [exactSurvivors, List.mem_filter]

theorem mem_exactRemovedIds {docs : List Document} {i : Nat} :
    i ∈ exactRemovedIds docs ↔
      ∃ d ∈ docs, keepExact docs d = false ∧ d.id = i := by
  simp [exactRemovedIds, List.mem_map, List.mem_filter, Bool.not_eq_true',
    and_assoc]

theorem exact_contains_iff {docs : List Document}
    (hids : (docs.map (·.id)).Nodup) {d : Document} (hd : d ∈ docs) :
    (exactRemovedIds docs).contains d.id = !keepExact docs d := by
  cases hk : keepExact docs d
  · simp only [Bool.not_false]
    have : d.id ∈ exactRemovedIds docs := mem_exactRemovedIds.mpr ⟨d, hd, hk, rfl⟩
    simpa using this
  · simp only [Bool.not_true]
    by_contra hcon
    rw [Bool.not_eq_false] at hcon
    have hmem : d.id ∈ exactRemovedIds docs := by simpa using hcon
    obtain ⟨e, he, hke, heid⟩ := mem_exactRemovedIds.mp hmem
    have hed : e = d := List.inj_on_of_nodup_map hids he hd heid
    rw [hed, hk] at hke
    exact Bool.noConfusion hke

theorem applyStage_exact_survivors {st : PipeState}
    (hids : (st.survivors.map (·.id)).Nodup) :
    (applyStage exactRemovedIds st).survivors = exactSurvivors st.survivors := by
  show st.survivors.filter _ = st.survivors.filter _
  apply List.filter_congr
  intro d hd
  rw [exact_contains_iff hids hd, Bool.not_not]

theorem keepExact_survivors {docs : List Document} {d : Document}
    (hd : d ∈ exactSurvivors docs) :
    keepExact (exactSurvivors docs) d = true := by
  obtain ⟨hd₀, hk⟩ := mem_exactSurvivors.mp hd
  rw [keepExact_iff] at hk ⊢
  exact fun e he => hk e (mem_exactSurvivors.mp he).1

theorem exactRemovedIds_survivors (docs : List Document) :
    exactRemovedIds (exactSurvivors docs) = [] := by
  unfold exactRemovedIds
  rw [List.map_eq_nil_iff, List.filter_eq_nil_iff]
  intro d hd
  simp [keepExact_survivors hd]

theorem applyStage_of_removed_nil {st : PipeState}
    (rm : List Document → List Nat) (h : rm st.survivors = []) :
    applyStage rm st = st := by
  obtain ⟨s, r⟩ := st
  simp only [applyStage] at h ⊢
  rw [h]
  simp

/-- C3: for any two distinct documents of the input with identical
normalized text, at most one is in the stage-1 survivor set; every
non-surviving member of that ContentHash group has its id added to the
RemovalSet; and which member survives is a deterministic function of the
input: a document survives iff it has the lowest id of its group. -/
theorem exact_dedup_correct (docs : List Document)
    (hids : (docs.map (·.id)).Nodup) (d₁ d₂ : Document)
    (h₁ : d₁ ∈ docs) (h₂ : d₂ ∈ docs) (hne : d₁ ≠ d₂)
    (ht : normalizeText d₁.text = normalizeText d₂.text) :
    ¬(d₁ ∈ exactSurvivors docs ∧ d₂ ∈ exactSurvivors docs) ∧
    (∀ d ∈ docs, normalizeText d.text = normalizeText d₁.text →
      d ∉ exactSurvivors docs → d.id ∈ exactRemovedIds docs) ∧
    (∀ d ∈ docs, (d ∈ exactSurvivors docs ↔
      ∀ e ∈ docs, normalizeText e.text = normalizeText d.text →
        d.id ≤ e.id)) := by
  refine ⟨?_, ?_, ?_⟩
  · rintro ⟨hs₁, hs₂⟩
    have le₁ : d₁.id ≤ d₂.id :=
      keepExact_iff.mp (mem_exactSurvivors.mp hs₁).2 d₂ h₂ ht.symm
    have le₂ : d₂.id ≤ d₁.id :=
      keepExact_iff.mp (mem_exactSurvivors.mp hs₂).2 d₁ h₁ ht
    exact hne (List.inj_on_of_nodup_map hids h₁ h₂ (Nat.le_antisymm le₁ le₂))
  · intro d hd _ hns
    have hk : keepExact docs d = false := by
      cases hk : keepExact docs d
      · rfl
      · exact absurd (mem_exactSurvivors.mpr ⟨hd, hk⟩) hns
    exact mem_exactRemovedIds.mpr ⟨d, hd, hk, rfl⟩
  · intro d hd
    rw [mem_exactSurvivors, keepExact_iff]
    exact and_iff_right hd

/-- C3 witness: a concrete three-document input with one duplicated text,
instantiating the theorem at documents 0 and 1. -/
theorem exact_dedup_correct_witness :
    (([⟨0, "a"⟩, ⟨1, "a"⟩, ⟨2, "b"⟩] : List Document).map (·.id)).Nodup ∧
    (¬((⟨0, "a"⟩ : Document) ∈ exactSurvivors [⟨0, "a"⟩, ⟨1, "a"⟩, ⟨2, "b"⟩] ∧
       (⟨1, "a"⟩ : Document) ∈ exactSurvivors [⟨0, "a"⟩, ⟨1, "a"⟩, ⟨2, "b"⟩]) ∧
     (∀ d ∈ ([⟨0, "a"⟩, ⟨1, "a"⟩, ⟨2, "b"⟩] : List Document),
       normalizeText d.text = normalizeText (⟨0, "a"⟩ : Document).text →
       d ∉ exactSurvivors [⟨0, "a"⟩, ⟨1, "a"⟩, ⟨2, "b"⟩] →
       d.id ∈ exactRemovedIds [⟨0, "a"⟩, ⟨1, "a"⟩, ⟨2, "b"⟩]) ∧
     (∀ d ∈ ([⟨0, "a"⟩, ⟨1, "a"⟩, ⟨2, "b"⟩] : List Document),
       (d ∈ exactSurvivors [⟨0, "a"⟩, ⟨1, "a"⟩, ⟨2, "b"⟩] ↔
        ∀ e ∈ ([⟨0, "a"⟩, ⟨1, "a"⟩, ⟨2, "b"⟩] : List Document),
          normalizeText e.text = normalizeText d.text → d.id ≤ e.id))) :=
  ⟨by decide,
   exact_dedup_correct [⟨0, "a"⟩, ⟨1, "a"⟩, ⟨2, "b"⟩] (by decide)
     ⟨0, "a"⟩ ⟨1, "a"⟩ (by decide) (by decide) (by decide) (by decide)⟩

/-- C5: stage 1 is idempotent: applying the exact-dedup stage to its own
output changes nothing — the survivor set is identical and the RemovalSet
after the second application equals the RemovalSet after the first (no id
is counted or removed twice). -/
theorem exact_dedup_idempotent (st : PipeState)
    (hids : (st.survivors.map (·.id)).Nodup) :
    (applyStage exactRemovedIds (applyStage exactRemovedIds st)).survivors =
      (applyStage exactRemovedIds st).survivors ∧
    (applyStage exactRemovedIds (applyStage exactRemovedIds st)).removal =
      (applyStage exactRemovedIds st).removal := by
  have hsurv := applyStage_exact_survivors hids
  have hnil : exactRemovedIds ((applyStage exactRemovedIds st).survivors) = [] := by
    rw [hsurv]
    exact exactRemovedIds_survivors _
  have hfix := applyStage_of_removed_nil exactRemovedIds hnil
  exact ⟨by rw [hfix], by rw [hfix]⟩

/-- C5 witness: a concrete duplicated input, instantiating idempotence of
the exact stage. -/
theorem exact_dedup_idempotent_witness :
    ((PipeState.mk [⟨0, "a"⟩, ⟨1, "a"⟩, ⟨2, "b"⟩] []).survivors.map
      (·.id)).Nodup ∧
    ((applyStage exactRemovedIds (applyStage exactRemovedIds
        ⟨[⟨0, "a"⟩, ⟨1, "a"⟩, ⟨2, "b"⟩], []⟩)).survivors =
      (applyStage exactRemovedIds
        ⟨[⟨0, "a"⟩, ⟨1, "a"⟩, ⟨2, "b"⟩], []⟩).survivors ∧
     (applyStage exactRemovedIds (applyStage exactRemovedIds
        ⟨[⟨0, "a"⟩, ⟨1, "a"⟩, ⟨2, "b"⟩], []⟩)).removal =
      (applyStage exactRemovedIds
        ⟨[⟨0, "a"⟩, ⟨1, "a"⟩, ⟨2, "b"⟩], []⟩).removal) :=
  ⟨by decide, exact_dedup_idempotent ⟨[⟨0, "a"⟩, ⟨1, "a"⟩, ⟨2, "b"⟩], []⟩
    (by decide)⟩

/-! ## C1: subset monotonicity and RemovalSet growth -/

/-- C1: along the three-stage pipeline of `plc_deduplication.py`, for
every input collection (with distinct ids) and every stage, the survivor
set emitted by stage N+1 is a subsequence (hence a subset) of the
survivor set emitted by stage N, the RemovalSet only gains ids across
stages (each stage's RemovalSet extends the previous one by appending),
and the RemovalSet never contains the same id twice at any stage. -/
theorem pipeline_monotone (fc : FuzzyCfg) (sc : SemCfg)
    (embed : Document → Vec) (docs : List Document)
    (hids : (docs.map (·.id)).Nodup) :
    List.Chain'
      (fun a b => List.Sublist b.survivors a.survivors ∧
        ∃ t, b.removal = a.removal ++ t)
      (fullPipeline fc sc embed docs) ∧
    ∀ st ∈ fullPipeline fc sc embed docs, st.removal.Nodup := by
  have i0 : StateInv ⟨docs, []⟩ := ⟨hids, List.nodup_nil, by simp⟩
  have i1 := stateInv_applyStage exactRemovedIds _ i0
  have i2 := stateInv_applyStage (fuzzyRemovedIds fc) _ i1
  have i3 := stateInv_applyStage (semRemovedIds sc embed) _ i2
  constructor
  · simp only [fullPipeline, List.chain'_cons, List.chain'_singleton,
      and_true]
    exact ⟨⟨applyStage_survivors_sublist _ _, _, rfl⟩,
      ⟨applyStage_survivors_sublist _ _, _, rfl⟩,
      ⟨applyStage_survivors_sublist _ _, _, rfl⟩⟩
  · intro st hst
    simp only [fullPipeline, List.mem_cons, List.mem_singleton,
      List.not_mem_nil, or_false] at hst
    rcases hst with rfl | rfl | rfl | rfl
    exacts [i0.2.1, i1.2.1, i2.2.1, i3.2.1]

/-- C1 witness: the pipeline monotonicity theorem instantiated on a
concrete two-duplicate input with concrete stage configurations and a
concrete embedding function. -/
theorem pipeline_monotone_witness :
    (([⟨0, "ab"⟩, ⟨1, "ab"⟩, ⟨2, "zzzz"⟩] : List Document).map (·.id)).Nodup ∧
    (List.Chain'
      (fun a b => List.Sublist b.survivors a.survivors ∧
        ∃ t, b.removal = a.removal ++ t)
      (fullPipeline ⟨1, 2, 1, 2/3, true, 2⟩ ⟨1, 2, 0, 1/10, .hard⟩
        (fun d => [(d.id : ℚ) / 100]) [⟨0, "ab"⟩, ⟨1, "ab"⟩, ⟨2, "zzzz"⟩]) ∧
     ∀ st ∈ fullPipeline ⟨1, 2, 1, 2/3, true, 2⟩ ⟨1, 2, 0, 1/10, .hard⟩
        (fun d => [(d.id : ℚ) / 100]) [⟨0, "ab"⟩, ⟨1, "ab"⟩, ⟨2, "zzzz"⟩],
       st.removal.Nodup) :=
  ⟨by decide,
   pipeline_monotone ⟨1, 2, 1, 2/3, true, 2⟩ ⟨1, 2, 0, 1/10, .hard⟩
     (fun d => [(d.id : ℚ) / 100]) [⟨0, "ab"⟩, ⟨1, "ab"⟩, ⟨2, "zzzz"⟩]
     (by decide)⟩

/-! ## C4: inclusive Jaccard threshold boundary -/

/-- C4: with `false_positive_check` enabled, the `jaccard_threshold`
boundary of the candidate-pair classification is inclusive: a pair whose
true Jaccard similarity equals the threshold exactly is classified as a
duplicate, while a pair with similarity strictly below the threshold is
not; consequently a verified member stays in its refined group and an
unverified one is dropped. -/
theorem jaccard_threshold_inclusive (cfg : FuzzyCfg)
    (_hfp : cfg.false_positive_check = true) (s t u v : String)
    (heq : jaccardSim (ngramSet cfg.char_ngrams s) (ngramSet cfg.char_ngrams t) =
      cfg.jaccard_threshold)
    (hlt : jaccardSim (ngramSet cfg.char_ngrams u) (ngramSet cfg.char_ngrams v) <
      cfg.jaccard_threshold)
    (a m : Document) (hat : a.text = t) (hms : m.text = s)
    (b w : Document) (hbv : b.text = v) (hwu : w.text = u) :
    isFuzzyDuplicatePair cfg s t = true ∧
    isFuzzyDuplicatePair cfg u v = false ∧
    fpKeep cfg [a] m = true ∧
    fpKeep cfg [b] w = false := by
  have h1 : isFuzzyDuplicatePair cfg s t = true := by
    unfold isFuzzyDuplicatePair
    rw [heq]
    simp
  have h2 : isFuzzyDuplicatePair cfg u v = false := by
    unfold isFuzzyDuplicatePair
    rw [decide_eq_false_iff_not]
    exact not_le_of_lt hlt
  refine ⟨h1, h2, ?_, ?_⟩
  · unfold fpKeep
    rw [List.any_cons, hat, hms, h1]
    rfl
  · unfold fpKeep
    rw [List.any_cons, hbv, hwu, h2]
    rfl

/-- C4 witness: with 1-gram sets and threshold `2/3`, the pair
`("ab", "abc")` has Jaccard similarity exactly `2/3` and is classified
duplicate; the pair `("ab", "cd")` has similarity `0 < 2/3` and is not. -/
theorem jaccard_threshold_inclusive_witness :
    ((⟨1, 2, 1, 2/3, true, 2⟩ : FuzzyCfg).false_positive_check = true ∧
     jaccardSim (ngramSet 1 "ab") (ngramSet 1 "abc") = (2 : ℚ)/3 ∧
     jaccardSim (ngramSet 1 "ab") (ngramSet 1 "cd") < (2 : ℚ)/3) ∧
    (isFuzzyDuplicatePair ⟨1, 2, 1, 2/3, true, 2⟩ "ab" "abc" = true ∧
     isFuzzyDuplicatePair ⟨1, 2, 1, 2/3, true, 2⟩ "ab" "cd" = false ∧
     fpKeep ⟨1, 2, 1, 2/3, true, 2⟩ [⟨7, "abc"⟩] ⟨5, "ab"⟩ = true ∧
     fpKeep ⟨1, 2, 1, 2/3, true, 2⟩ [⟨8, "cd"⟩] ⟨5, "ab"⟩ = false) :=
  have hlt : jaccardSim (ngramSet 1 "ab") (ngramSet 1 "cd") < (2 : ℚ)/3 := by
    unfold jaccardSim
    rw [show ((ngramSet 1 "ab") ∩ (ngramSet 1 "cd")).card = 0 from by decide,
        show ((ngramSet 1 "ab") ∪ (ngramSet 1 "cd")).card = 4 from by decide]
    norm_num
  have heq : jaccardSim (ngramSet 1 "ab") (ngramSet 1 "abc") = (2 : ℚ)/3 := rfl
  ⟨⟨rfl, heq, hlt⟩,
   jaccard_threshold_inclusive ⟨1, 2, 1, 2/3, true, 2⟩ rfl "ab" "abc" "ab" "cd"
     heq hlt ⟨7, "abc"⟩ ⟨5, "ab"⟩ rfl rfl ⟨8, "cd"⟩ ⟨5, "ab"⟩ rfl rfl⟩

/-! ## C8: semantic retention modes -/

theorem foldMax_spec (xs : List (Nat × ℚ)) (x : Nat × ℚ) :
    (xs.foldl (fun b y => if b.2 < y.2 then y else b) x) ∈ x :: xs ∧
    x.2 ≤ (xs.foldl (fun b y => if b.2 < y.2 then y else b) x).2 ∧
    ∀ y ∈ xs, y.2 ≤ (xs.foldl (fun b y => if b.2 < y.2 then y else b) x).2 := by
  induction xs generalizing x with
  | nil => exact ⟨List.mem_singleton.mpr rfl, le_refl _, by simp⟩
  | cons y ys ih =>
    obtain ⟨hmem, hle, hall⟩ := ih (if x.2 < y.2 then y else x)
    have hx'mem : (if x.2 < y.2 then y else x) ∈ x :: y :: ys := by
      by_cases hxy : x.2 < y.2 <;> simp [hxy]
    have hxx' : x.2 ≤ (if x.2 < y.2 then y else x).2 := by
      by_cases hxy : x.2 < y.2
      · rw [if_pos hxy]; exact le_of_lt hxy
      · rw [if_neg hxy]
    have hyx' : y.2 ≤ (if x.2 < y.2 then y else x).2 := by
      by_cases hxy : x.2 < y.2
      · rw [if_pos hxy]
      · rw [if_neg hxy]; exact le_of_not_lt hxy
    refine ⟨?_, le_trans hxx' hle, ?_⟩
    · rw [List.foldl_cons]
      rcases List.mem_cons.mp hmem with h | h
      · rw [h]; exact hx'mem
      · exact List.mem_cons_of_mem _ (List.mem_cons_of_mem _ h)
    · intro z hz
      rw [List.foldl_cons]
      rcases List.mem_cons.mp hz with rfl | hz
      · exact le_trans hyx' hle
      · exact hall z hz

theorem foldMin_spec (xs : List (Nat × ℚ)) (x : Nat × ℚ) :
    (xs.foldl (fun b y => if y.2 < b.2 then y else b) x) ∈ x :: xs ∧
    (xs.foldl (fun b y => if y.2 < b.2 then y else b) x).2 ≤ x.2 ∧
    ∀ y ∈ xs, (xs.foldl (fun b y => if y.2 < b.2 then y else b) x).2 ≤ y.2 := by
  induction xs generalizing x with
  | nil => exact ⟨List.mem_singleton.mpr rfl, le_refl _, by simp⟩
  | cons y ys ih =>
    obtain ⟨hmem, hle, hall⟩ := ih (if y.2 < x.2 then y else x)
    have hx'mem : (if y.2 < x.2 then y else x) ∈ x :: y :: ys := by
      by_cases hxy : y.2 < x.2 <;> simp [hxy]
    have hxx' : (if y.2 < x.2 then y else x).2 ≤ x.2 := by
      by_cases hxy : y.2 < x.2
      · rw [if_pos hxy]; exact le_of_lt hxy
      · rw [if_neg hxy]
    have hyx' : (if y.2 < x.2 then y else x).2 ≤ y.2 := by
      by_cases hxy : y.2 < x.2
      · rw [if_pos hxy]
      · rw [if_neg hxy]; exact le_of_not_lt hxy
    refine ⟨?_, le_trans hle hxx', ?_⟩
    · rw [List.foldl_cons]
      rcases List.mem_cons.mp hmem with h | h
      · rw [h]; exact hx'mem
      · exact List.mem_cons_of_mem _ (List.mem_cons_of_mem _ h)
    · intro z hz
      rw [List.foldl_cons]
      rcases List.mem_cons.mp hz with rfl | hz
      · exact le_trans hle hyx'
      · exact hall z hz

theorem chooseSurvivor_hard {g : List (Nat × ℚ)} {m : Nat × ℚ} (hm : m ∈ g)
    (hmax : ∀ x ∈ g, x ≠ m → x.2 < m.2) (seed : Nat) :
    chooseSurvivor .hard seed g = some m.1 := by
  cases g with
  | nil => cases hm
  | cons x xs =>
    obtain ⟨hmem, hle, hall⟩ := foldMax_spec xs x
    have hr : ∀ y ∈ x :: xs,
        y.2 ≤ (xs.foldl (fun b y => if b.2 < y.2 then y else b) x).2 := by
      intro y hy
      rcases List.mem_cons.mp hy with rfl | hy
      · exact hle
      · exact hall y hy
    have heq : (xs.foldl (fun b y => if b.2 < y.2 then y else b) x) = m := by
      by_contra hne
      exact absurd (hmax _ hmem hne) (not_lt_of_le (hr m hm))
    show (pickFurthest (x :: xs)).map (·.1) = some m.1
    have hpf : pickFurthest (x :: xs) =
        some (xs.foldl (fun b y => if b.2 < y.2 then y else b) x) := rfl
    rw [hpf, heq]
    rfl

theorem chooseSurvivor_easy {g : List (Nat × ℚ)} {e : Nat × ℚ} (he : e ∈ g)
    (hmin : ∀ x ∈ g, x ≠ e → e.2 < x.2) (seed : Nat) :
    chooseSurvivor .easy seed g = some e.1 := by
  cases g with
  | nil => cases he
  | cons x xs =>
    obtain ⟨hmem, hle, hall⟩ := foldMin_spec xs x
    have hr : ∀ y ∈ x :: xs,
        (xs.foldl (fun b y => if y.2 < b.2 then y else b) x).2 ≤ y.2 := by
      intro y hy
      rcases List.mem_cons.mp hy with rfl | hy
      · exact hle
      · exact hall y hy
    have heq : (xs.foldl (fun b y => if y.2 < b.2 then y else b) x) = e := by
      by_contra hne
      exact absurd (hmin _ hmem hne) (not_lt_of_le (hr e he))
    show (pickClosest (x :: xs)).map (·.1) = some e.1
    have hpf : pickClosest (x :: xs) =
        some (xs.foldl (fun b y => if y.2 < b.2 then y else b) x) := rfl
    rw [hpf, heq]
    rfl

theorem chooseSurvivor_random {g : List (Nat × ℚ)} (hne : g ≠ []) (seed : Nat) :
    ∃ r ∈ g, chooseSurvivor .random seed g = some r.1 := by
  have hlen : 0 < g.length := List.length_pos.mpr hne
  have hidx : seed % g.length < g.length := Nat.mod_lt seed hlen
  refine ⟨g[seed % g.length], List.getElem_mem hidx, ?_⟩
  show (if g.isEmpty then none else some ((g.getD (seed % g.length) (0, 0)).1)) = _
  rw [if_neg (by simp [List.isEmpty_iff, hne]),
    List.getD_eq_getElem g (0, 0) hidx]

/-- C8: the semantic retention policy: `hard` retains exactly the group
member whose distance from the cluster centroid is (uniquely) maximal,
`easy` retains exactly the member whose distance is (uniquely) minimal,
and `random` retains exactly one group member, reproducibly determined by
the seed; on the 3-member cluster at centroid distances {0.1, 0.5, 0.9},
`hard` retains the 0.9 member (id 3) and `easy` the 0.1 member (id 1). -/
theorem retention_modes (g : List (Nat × ℚ)) (seed : Nat) (m e : Nat × ℚ)
    (hm : m ∈ g) (hmax : ∀ x ∈ g, x ≠ m → x.2 < m.2)
    (he : e ∈ g) (hmin : ∀ x ∈ g, x ≠ e → e.2 < x.2) :
    chooseSurvivor .hard seed g = some m.1 ∧
    chooseSurvivor .easy seed g = some e.1 ∧
    (∃ r ∈ g, chooseSurvivor .random seed g = some r.1) ∧
    chooseSurvivor .hard seed [(1, 1/10), (2, 1/2), (3, 9/10)] = some 3 ∧
    chooseSurvivor .easy seed [(1, 1/10), (2, 1/2), (3, 9/10)] = some 1 :=
  ⟨chooseSurvivor_hard hm hmax seed,
   chooseSurvivor_easy he hmin seed,
   chooseSurvivor_random (List.ne_nil_of_mem hm) seed,
   chooseSurvivor_hard (g := [(1, 1/10), (2, 1/2), (3, 9/10)])
     (m := (3, 9/10)) (by norm_num) (by norm_num) seed,
   chooseSurvivor_easy (g := [(1, 1/10), (2, 1/2), (3, 9/10)])
     (e := (1, 1/10)) (by norm_num) (by norm_num) seed⟩

/-- C8 witness: the retention-mode theorem instantiated on the concrete
cluster at centroid distances {0.1, 0.5, 0.9} with seed 7. -/
theorem retention_modes_witness :
    (((3 : Nat), (9 : ℚ)/10) ∈ ([(1, 1/10), (2, 1/2), (3, 9/10)] : List (Nat × ℚ)) ∧
     ((1 : Nat), (1 : ℚ)/10) ∈ ([(1, 1/10), (2, 1/2), (3, 9/10)] : List (Nat × ℚ))) ∧
    (chooseSurvivor .hard 7 [(1, 1/10), (2, 1/2), (3, 9/10)] =
      some ((3 : Nat), (9 : ℚ)/10).1 ∧
     chooseSurvivor .easy 7 [(1, 1/10), (2, 1/2), (3, 9/10)] =
      some ((1 : Nat), (1 : ℚ)/10).1 ∧
     (∃ r ∈ ([(1, 1/10), (2, 1/2), (3, 9/10)] : List (Nat × ℚ)),
       chooseSurvivor .random 7 [(1, 1/10), (2, 1/2), (3, 9/10)] = some r.1) ∧
     chooseSurvivor .hard 7 [(1, 1/10), (2, 1/2), (3, 9/10)] = some 3 ∧
     chooseSurvivor .easy 7 [(1, 1/10), (2, 1/2), (3, 9/10)] = some 1) :=
  ⟨⟨by norm_num, by norm_num⟩,
   retention_modes [(1, 1/10), (2, 1/2), (3, 9/10)] 7 (3, 9/10) (1, 1/10)
     (by norm_num) (by norm_num) (by norm_num) (by norm_num)⟩

/-! ## C6: caching and resumability -/

theorem applyStage_split (rm : List Document → List Nat) (st : PipeState) :
    applyStage rm st = ⟨(applyStage rm ⟨st.survivors, []⟩).survivors,
      st.removal ++ (applyStage rm ⟨st.survivors, []⟩).removal⟩ := by
  obtain ⟨s, r⟩ := st
  simp [applyStage]

/-- C6 counterexample: the claim "a run that is interrupted after a
stage's cache commit and then restarted loads that stage's cached output
instead of recomputing it" is false for the code as cited: because
`plc_deduplication_fixed.py` sets `CLEAR_CACHE = True` and deletes every
stage cache directory at startup, a restart after a committed stage 1
(here: exact dedup on two duplicate documents, fingerprint 42, with its
commit present in the cache) does not load the cache — the loaded-flag of
the restarted stage execution is `false`, so the stage is recomputed. -/
theorem clear_cache_defeats_resume :
    (fixedRestartStage 42 exactRemovedIds
      (some (commitEntry 42 exactRemovedIds [⟨0, "a"⟩, ⟨1, "a"⟩]))
      ⟨[⟨0, "a"⟩, ⟨1, "a"⟩], []⟩).2.2 = false := rfl

/-- C6 (amended): the engine's stage caching behaves as claimed: a
restarted run presented with the stage's committed cache entry under a
matching configuration fingerprint loads the cached survivor/removal
output (loaded-flag `true`) and its resulting state is identical to the
uninterrupted recomputation; a cache entry whose fingerprint does not
match the current configuration is never silently reused — the stage is
recomputed (loaded-flag `false`) with the same result as a fresh run.
However, the fixed driver script clears all caches at startup
(`CLEAR_CACHE = True`), so its restart recomputes the stage
(loaded-flag `false`) — the final state is still identical to the
uninterrupted run. -/
theorem cache_resume_semantics (fp : Nat) (rm : List Document → List Nat)
    (st : PipeState) (e : CacheEntry) (hmi : e.fp ≠ fp) :
    (runStageCached fp rm (some (commitEntry fp rm st.survivors)) st).1 =
      applyStage rm st ∧
    (runStageCached fp rm (some (commitEntry fp rm st.survivors)) st).2.2 =
      true ∧
    (runStageCached fp rm (some e) st).2.2 = false ∧
    (runStageCached fp rm (some e) st).1 = applyStage rm st ∧
    (fixedRestartStage fp rm (some (commitEntry fp rm st.survivors)) st).1 =
      applyStage rm st ∧
    (fixedRestartStage fp rm (some (commitEntry fp rm st.survivors)) st).2.2 =
      false := by
  have h1 : runStageCached fp rm (some (commitEntry fp rm st.survivors)) st =
      (⟨(applyStage rm ⟨st.survivors, []⟩).survivors,
        st.removal ++ (applyStage rm ⟨st.survivors, []⟩).removal⟩,
       commitEntry fp rm st.survivors, true) := by
    simp [runStageCached, commitEntry]
  have h2 : runStageCached fp rm (some e) st =
      (applyStage rm st, commitEntry fp rm st.survivors, false) := by
    simp [runStageCached, hmi]
  have h3 : fixedRestartStage fp rm
      (some (commitEntry fp rm st.survivors)) st =
      (applyStage rm st, commitEntry fp rm st.survivors, false) := by
    simp [fixedRestartStage, clearCaches, CLEAR_CACHE, runStageCached]
  refine ⟨?_, ?_, ?_, ?_, ?_, ?_⟩
  · rw [h1, applyStage_split rm st]
  · rw [h1]
  · rw [h2]
  · rw [h2]
  · rw [h3]
  · rw [h3]

/-- C6 witness: the cache-resume theorem instantiated at a concrete
two-document input, fingerprint 1, and a stale cache entry with
fingerprint 0. -/
theorem cache_resume_semantics_witness :
    ((⟨0, [], []⟩ : CacheEntry).fp ≠ 1) ∧
    ((runStageCached 1 exactRemovedIds
        (some (commitEntry 1 exactRemovedIds
          (PipeState.mk [⟨0, "a"⟩, ⟨1, "a"⟩] []).survivors))
        ⟨[⟨0, "a"⟩, ⟨1, "a"⟩], []⟩).1 =
      applyStage exactRemovedIds ⟨[⟨0, "a"⟩, ⟨1, "a"⟩], []⟩ ∧
     (runStageCached 1 exactRemovedIds
        (some (commitEntry 1 exactRemovedIds
          (PipeState.mk [⟨0, "a"⟩, ⟨1, "a"⟩] []).survivors))
        ⟨[⟨0, "a"⟩, ⟨1, "a"⟩], []⟩).2.2 = true ∧
     (runStageCached 1 exactRemovedIds (some ⟨0, [], []⟩)
        ⟨[⟨0, "a"⟩, ⟨1, "a"⟩], []⟩).2.2 = false ∧
     (runStageCached 1 exactRemovedIds (some ⟨0, [], []⟩)
        ⟨[⟨0, "a"⟩, ⟨1, "a"⟩], []⟩).1 =
      applyStage exactRemovedIds ⟨[⟨0, "a"⟩, ⟨1, "a"⟩], []⟩ ∧
     (fixedRestartStage 1 exactRemovedIds
        (some (commitEntry 1 exactRemovedIds
          (PipeState.mk [⟨0, "a"⟩, ⟨1, "a"⟩] []).survivors))
        ⟨[⟨0, "a"⟩, ⟨1, "a"⟩], []⟩).1 =
      applyStage exactRemovedIds ⟨[⟨0, "a"⟩, ⟨1, "a"⟩], []⟩ ∧
     (fixedRestartStage 1 exactRemovedIds
        (some (commitEntry 1 exactRemovedIds
          (PipeState.mk [⟨0, "a"⟩, ⟨1, "a"⟩] []).survivors))
        ⟨[⟨0, "a"⟩, ⟨1, "a"⟩], []⟩).2.2 = false) :=
  ⟨by decide,
   cache_resume_semantics 1 exactRemovedIds ⟨[⟨0, "a"⟩, ⟨1, "a"⟩], []⟩
     ⟨0, [], []⟩ (by decide)⟩

/-- C7 witness: the null/empty-text exclusion theorem instantiated on a
concrete raw batch containing a null-text record, an empty-text record
and a valid record. -/
theorem null_empty_text_excluded_witness :
    ((RawDoc.mk none).text = none ∨ (RawDoc.mk none).text = some "") ∧
    ((⟨none⟩ : RawDoc) ∉ preprocess [⟨none⟩, ⟨some ""⟩, ⟨some "abc"⟩] ∧
     (∀ st ∈ fixedRun ⟨1, 1, 1, 1/2, true, 2⟩ [⟨none⟩, ⟨some ""⟩, ⟨some "abc"⟩],
       ∀ e ∈ st.survivors, e.text ≠ "") ∧
     (∀ e ∈ ([⟨none⟩, ⟨some ""⟩, ⟨some "abc"⟩] : List RawDoc), ∀ t,
       e.text = some t → stripStr t ≠ "" →
       e ∈ preprocess [⟨none⟩, ⟨some ""⟩, ⟨some "abc"⟩])) :=
  ⟨Or.inl rfl,
   null_empty_text_excluded [⟨none⟩, ⟨some ""⟩, ⟨some "abc"⟩]
     ⟨1, 1, 1, 1/2, true, 2⟩ ⟨none⟩ (Or.inl rfl)⟩

/-- C9 witness: the whitespace-only exclusion theorem instantiated on a
concrete raw batch containing a whitespace-only record. -/
theorem whitespace_only_excluded_witness :
    ((RawDoc.mk (some "  ")).text = some "  " ∧
     ∀ c ∈ "  ".data, c.isWhitespace) ∧
    ((⟨some "  "⟩ : RawDoc) ∉ preprocess [⟨some "  "⟩, ⟨some "abc"⟩] ∧
     (∀ st ∈ fixedRun ⟨1, 1, 1, 1/2, true, 2⟩ [⟨some "  "⟩, ⟨some "abc"⟩],
       ∀ e ∈ st.survivors, ∃ c ∈ e.text.data, ¬ c.isWhitespace)) :=
  ⟨⟨rfl, by decide⟩,
   whitespace_only_excluded [⟨some "  "⟩, ⟨some "abc"⟩]
     ⟨1, 1, 1, 1/2, true, 2⟩ ⟨some "  "⟩ "  " rfl (by decide)⟩

end PlcDedup
